import Mathlib

/-!
Verification development for the PR analysis service (src/main.py).

The program is embedded shallowly: strings are lists of characters, the
regular-expression based diff splitting is modelled by an executable scanner
with the exact lazy-match and backtracking semantics of the Python pattern,
the job registry is an association list driven by an event trace, and the
external collaborators (completion capability, git forge) are oracles passed
as function arguments.
-/

/-! Basic character-list utilities mirroring Python string primitives. -/

/-- Whitespace set used by the Python str.strip method (ASCII part). -/
def pyWs (c : Char) : Bool :=
  c = ' ' || c = '\t' || c = '\n' || c = '\r' || c = '\x0b' || c = '\x0c'

/-- Model of the Python str.strip method: drop whitespace from both ends. -/
def pyStrip (s : List Char) : List Char :=
  ((s.dropWhile pyWs).reverse.dropWhile pyWs).reverse

/-- Model of the Python str.endswith method. -/
def pyEndsWith (suf s : List Char) : Bool := suf.isSuffixOf s

/-- Occurrence test: does pat occur as a contiguous substring of s. -/
def occurs (pat : List Char) : List Char → Bool
  | [] => pat.isPrefixOf []
  | s@(_ :: rest) => pat.isPrefixOf s || occurs pat rest

/-! The Diff Splitter (src/main.py, split_by_file).

The Python code runs re.findall with the DOTALL pattern

  diff --git a/(.*?) b/.*?\n(.*?)(?=\ndiff --git a/|\Z)

over the raw diff text.  The scanner below reproduces its semantics exactly:
the engine looks for the leftmost match position; at a candidate position the
lazy group 1 extends to the first following occurrence of the literal between
the groups, the lazy gap extends to the first following newline, and group 2
extends to the first position where the lookahead holds, which always
succeeds at end of input under DOTALL.  Backtracking of the two lazy pieces
can never change the result: if no newline follows the first inter-group
literal then none follows a later one, so the match attempt fails outright,
exactly as the scanner reports. -/

/-- Literal char list of the string "diff --git a/". -/
def headerLit : List Char :=
  ['d', 'i', 'f', 'f', ' ', '-', '-', 'g', 'i', 't', ' ', 'a', '/']

/-- Literal char list of the string " b/". -/
def bsep : List Char := [' ', 'b', '/']

/-- Newline character. -/
def nl : Char := '\n'

/-- Literal char list of the lookahead string, a newline then the header literal. -/
def nlHeader : List Char := nl :: headerLit

/-- Split a string at the first occurrence of pat, returning the part before
the occurrence and the part after it, or none when pat does not occur. -/
def splitFirst (pat : List Char) : List Char → Option (List Char × List Char)
  | [] => none
  | s@(c :: rest) =>
    if pat.isPrefixOf s then some ([], s.drop pat.length)
    else
      match splitFirst pat rest with
      | some (pre, post) => some (c :: pre, post)
      | none => none

/-- Consume characters until the lookahead boundary, a newline followed by the
header literal, or the end of input; returns the consumed part and the rest. -/
def takeUntilBoundary : List Char → (List Char × List Char)
  | [] => ([], [])
  | s@(c :: rest) =>
    if nlHeader.isPrefixOf s then ([], s)
    else
      let (b, r) := takeUntilBoundary rest
      (c :: b, r)

/-- Attempt a match of the splitter pattern at the start of s; on success
returns the group 1 text, the group 2 text, and the remaining input after the
match (the lookahead consumes nothing). -/
def matchAt (s : List Char) : Option (List Char × List Char × List Char) :=
  if headerLit.isPrefixOf s then
    match splitFirst bsep (s.drop headerLit.length) with
    | some (fname, afterB) =>
      match splitFirst [nl] afterB with
      | some (_, afterNl) =>
        let (body, rest) := takeUntilBoundary afterNl
        some (fname, body, rest)
      | none => none
    | none => none
  else none

/-- Fuel-indexed scanning loop of re.findall: try a match at each position,
resuming after the end of every successful match. -/
def findallAux : Nat → List Char → List (List Char × List Char)
  | 0, _ => []
  | _ + 1, [] => []
  | fuel + 1, s@(_ :: rest) =>
    match matchAt s with
    | some (f, b, r) => (f, b) :: findallAux fuel r
    | none => findallAux fuel rest

/-- Model of re.findall for the splitter pattern. -/
def findall (s : List Char) : List (List Char × List Char) :=
  findallAux s.length s

/-- Per-file record produced by the splitter and enriched by the analyzer
(the FileResult TypedDict of src/main.py). -/
structure FileResult where
  filename : List Char
  diff : List Char
  is_apex : Bool
  explanation : List Char
  review_comments : List Char
  business_summary : List Char
deriving DecidableEq, Repr

/-- Embedding of is_apex_file: the filename ends in ".cls" or ".trigger". -/
def is_apex_file (filename : List Char) : Bool :=
  pyEndsWith ['.', 'c', 'l', 's'] filename ||
  pyEndsWith ['.', 't', 'r', 'i', 'g', 'g', 'e', 'r'] filename

/-- Embedding of split_by_file: one record per regex match, the filename and
diff stripped, the apex flag computed on the unstripped group 1 text. -/
def split_by_file (diff : List Char) : List FileResult :=
  (findall diff).map fun m =>
    { filename := pyStrip m.1
      diff := pyStrip m.2
      is_apex := is_apex_file m.1
      explanation := []
      review_comments := []
      business_summary := [] }

/-! Header-line counting, used to state the original splitter claim: a line
of the diff is a file header when it starts with the header literal and the
rest of the line contains the " b/" separator. -/

/-- Split a character list into its newline-separated lines. -/
def splitLines : List Char → List (List Char)
  | [] => [[]]
  | c :: rest =>
    match splitLines rest with
    | [] => [[c]]
    | l :: ls => if c = nl then [] :: l :: ls else (c :: l) :: ls

/-- A line of the form "diff --git a/<path> b/<path>". -/
def isHeaderLine (l : List Char) : Bool :=
  headerLit.isPrefixOf l && occurs bsep (l.drop headerLit.length)

/-- Number of file-header lines in a diff text. -/
def headerLineCount (d : List Char) : Nat :=
  ((splitLines d).filter isHeaderLine).length

/-! Prefix lemmas used by the splitter proofs. -/

lemma isPrefixOf_self_append (p t : List Char) : p.isPrefixOf (p ++ t) = true := by
  induction p with
  | nil => simp
  | cons c p ih => simp [List.isPrefixOf_cons₂, ih]

lemma isPrefixOf_append_long (p a b : List Char) (h : p.length ≤ a.length) :
    p.isPrefixOf (a ++ b) = p.isPrefixOf a := by
  induction p generalizing a with
  | nil => simp
  | cons c p ih =>
    cases a with
    | nil => simp at h
    | cons x a' =>
      show (c == x && p.isPrefixOf (a' ++ b)) = (c == x && p.isPrefixOf a')
      rw [ih a' (by simpa using h)]

lemma isPrefixOf_append_short (p a b : List Char) (h : a.length < p.length)
    (hp : p.isPrefixOf (a ++ b) = true) : (p.drop a.length).isPrefixOf b = true := by
  induction a generalizing p with
  | nil => simpa using hp
  | cons x a' ih =>
    cases p with
    | nil => simp at h
    | cons c p' =>
      have hp' : p'.isPrefixOf (a' ++ b) = true := by
        simp only [List.cons_append, List.isPrefixOf, Bool.and_eq_true] at hp
        exact hp.2
      have h' : a'.length < p'.length := by simp at h; omega
      simpa using ih p' h' hp'

/-! Straddle lemmas: an occurrence of the separator pattern that begins
inside the part before the separator must lie entirely inside that part. -/

lemma bsep_straddle (u v : List Char) (hu : u ≠ [])
    (h : bsep.isPrefixOf (u ++ (bsep ++ v)) = true) : bsep.isPrefixOf u = true := by
  match u with
  | [] => exact absurd rfl hu
  | [x] =>
    exfalso
    have e1 : (('b' : Char) == ' ') = false := by decide
    simp only [bsep, List.cons_append, List.nil_append, List.isPrefixOf_cons₂, e1,
      Bool.false_and, Bool.and_false] at h
    exact Bool.false_ne_true h
  | [x, y] =>
    exfalso
    have e1 : (('/' : Char) == ' ') = false := by decide
    simp only [bsep, List.cons_append, List.nil_append, List.isPrefixOf_cons₂, e1,
      Bool.false_and, Bool.and_false] at h
    exact Bool.false_ne_true h
  | x :: y :: z :: u' =>
    rw [← isPrefixOf_append_long bsep (x :: y :: z :: u') (bsep ++ v) (by simp [bsep])]
    exact h

lemma nlHeader_straddle (u v : List Char) (hu : u ≠ [])
    (h : nlHeader.isPrefixOf (u ++ (nlHeader ++ v)) = true) :
    nlHeader.isPrefixOf u = true := by
  by_cases hl : nlHeader.length ≤ u.length
  · rw [← isPrefixOf_append_long nlHeader u (nlHeader ++ v) hl]; exact h
  · exfalso
    push_neg at hl
    have h2 := isPrefixOf_append_short nlHeader u (nlHeader ++ v) hl h
    obtain ⟨x, u', rfl⟩ : ∃ x u', u = x :: u' := by
      cases u with
      | nil => exact absurd rfl hu
      | cons a b => exact ⟨a, b, rfl⟩
    have hdrop : nlHeader.drop (x :: u').length = headerLit.drop u'.length := by
      simp [nlHeader]
    rw [hdrop] at h2
    have hlen : u'.length < headerLit.length := by
      simp [nlHeader] at hl
      simpa using Nat.lt_of_succ_lt_succ (by simpa [List.length_cons] using hl)
    obtain ⟨y, d', hd⟩ : ∃ y d', headerLit.drop u'.length = y :: d' := by
      cases e : headerLit.drop u'.length with
      | nil =>
        rw [List.drop_eq_nil_iff] at e
        omega
      | cons a b => exact ⟨a, b, rfl⟩
    rw [hd] at h2
    have hy : y = nl := by
      have : nlHeader ++ v = nl :: (headerLit ++ v) := rfl
      rw [this, List.isPrefixOf_cons₂, Bool.and_eq_true] at h2
      exact eq_of_beq h2.1
    have hymem : y ∈ headerLit := List.drop_subset u'.length headerLit (hd ▸ List.mem_cons_self y d')
    rw [hy] at hymem
    have : nl ∉ headerLit := by decide
    exact this hymem

/-! Behaviour of the lazy sub-matchers on well-formed input. -/

lemma splitFirst_bsep (pre r : List Char) (h : occurs bsep pre = false) :
    splitFirst bsep (pre ++ (bsep ++ r)) = some (pre, r) := by
  induction pre with
  | nil =>
    show splitFirst bsep (' ' :: ('b' :: '/' :: r)) = some ([], r)
    rw [splitFirst, if_pos (show bsep.isPrefixOf (' ' :: 'b' :: '/' :: r) = true from isPrefixOf_self_append bsep r)]
    rfl
  | cons c pre' ih =>
    simp only [occurs, Bool.or_eq_false_iff] at h
    obtain ⟨h1, h2⟩ := h
    have hne : bsep.isPrefixOf ((c :: pre') ++ (bsep ++ r)) = false := by
      cases e : bsep.isPrefixOf ((c :: pre') ++ (bsep ++ r)) with
      | false => rfl
      | true => exact absurd (bsep_straddle (c :: pre') r (by simp) e) (by simp [h1])
    show splitFirst bsep (c :: (pre' ++ (bsep ++ r))) = some (c :: pre', r)
    simp only [List.cons_append] at hne
    rw [splitFirst, if_neg (by simp [hne]), ih h2]

lemma splitFirst_nl (pre r : List Char) (h : occurs [nl] pre = false) :
    splitFirst [nl] (pre ++ (nl :: r)) = some (pre, r) := by
  induction pre with
  | nil =>
    show splitFirst [nl] (nl :: r) = some ([], r)
    rw [splitFirst, if_pos (show [nl].isPrefixOf (nl :: r) = true from isPrefixOf_self_append [nl] r)]
    rfl
  | cons c pre' ih =>
    simp only [occurs, Bool.or_eq_false_iff] at h
    obtain ⟨h1, h2⟩ := h
    have hc : (nl == c) = false := by
      rw [List.isPrefixOf_cons₂] at h1
      simpa using h1
    show splitFirst [nl] (c :: (pre' ++ (nl :: r))) = some (c :: pre', r)
    have hne : ([nl].isPrefixOf (c :: (pre' ++ (nl :: r)))) = false := by
      rw [List.isPrefixOf_cons₂]
      simp [hc]
    rw [splitFirst, if_neg (by simp [hne]), ih h2]

lemma takeUntil_no_occ (body : List Char) (h : occurs nlHeader body = false) :
    takeUntilBoundary body = (body, []) := by
  induction body with
  | nil => rfl
  | cons c rest ih =>
    simp only [occurs, Bool.or_eq_false_iff] at h
    obtain ⟨h1, h2⟩ := h
    rw [takeUntilBoundary, if_neg (by simp [h1]), ih h2]

lemma takeUntil_boundary (body tail : List Char) (h : occurs nlHeader body = false) :
    takeUntilBoundary (body ++ (nlHeader ++ tail)) = (body, nlHeader ++ tail) := by
  induction body with
  | nil =>
    have hpre : nlHeader.isPrefixOf (nl :: (headerLit ++ tail)) = true :=
      isPrefixOf_self_append nlHeader tail
    show takeUntilBoundary (nl :: (headerLit ++ tail)) = ([], nl :: (headerLit ++ tail))
    rw [takeUntilBoundary, if_pos hpre]
  | cons c rest ih =>
    simp only [occurs, Bool.or_eq_false_iff] at h
    obtain ⟨h1, h2⟩ := h
    have hne : nlHeader.isPrefixOf (c :: (rest ++ (nlHeader ++ tail))) = false := by
      cases e : nlHeader.isPrefixOf (c :: (rest ++ (nlHeader ++ tail))) with
      | false => rfl
      | true =>
        have := nlHeader_straddle (c :: rest) tail (by simp) (by simpa using e)
        exact absurd this (by simp [h1])
    show takeUntilBoundary (c :: (rest ++ (nlHeader ++ tail)))
        = (c :: rest, nlHeader ++ tail)
    rw [takeUntilBoundary, if_neg (by simp [hne]), ih h2]

/-! Well-formed per-file sections of a diff text.  A section consists of the
text of one header line, split into its a-side path and its b-side remainder,
followed by the body text of that file; sections are assembled into a diff by
newline separation. -/

/-- One per-file section of a diff: the header line is the header literal,
then aPath, then the " b/" separator, then bSide; body is the text below the
header line. -/
structure RawSection where
  aPath : List Char
  bSide : List Char
  body : List Char
deriving DecidableEq, Repr

/-- Assemble the text of one section. -/
def mkSection (s : RawSection) : List Char :=
  headerLit ++ (s.aPath ++ (bsep ++ (s.bSide ++ (nl :: s.body))))

/-- Assemble a diff text from sections, separated by single newlines. -/
def mkDiff : List RawSection → List Char
  | [] => []
  | [s] => mkSection s
  | s :: rest => mkSection s ++ (nl :: mkDiff rest)

/-- Well-formedness of a section: the a-side path contains neither the " b/"
separator nor a newline, the b-side remainder contains no newline, and the
body contains no newline followed by the header literal. -/
def WFsec (s : RawSection) : Bool :=
  !occurs bsep s.aPath && !occurs [nl] s.aPath &&
  !occurs [nl] s.bSide && !occurs nlHeader s.body

lemma wf_parts (s : RawSection) (h : WFsec s = true) :
    occurs bsep s.aPath = false ∧ occurs [nl] s.aPath = false ∧
    occurs [nl] s.bSide = false ∧ occurs nlHeader s.body = false := by
  simp only [WFsec, Bool.and_eq_true, Bool.not_eq_true'] at h
  tauto

lemma matchAt_section (s : RawSection) (tail : List Char) (hwf : WFsec s = true)
    (htail : tail = [] ∨ ∃ r, tail = nlHeader ++ r) :
    matchAt (mkSection s ++ tail) = some (s.aPath, s.body, tail) := by
  obtain ⟨h1, _, h3, h4⟩ := wf_parts s hwf
  have hshape : mkSection s ++ tail
      = headerLit ++ (s.aPath ++ (bsep ++ (s.bSide ++ (nl :: (s.body ++ tail))))) := by
    simp [mkSection, List.append_assoc]
  have hb : takeUntilBoundary (s.body ++ tail) = (s.body, tail) := by
    rcases htail with rfl | ⟨r, rfl⟩
    · rw [List.append_nil]; exact takeUntil_no_occ s.body h4
    · exact takeUntil_boundary s.body r h4
  rw [hshape, matchAt,
    if_pos (isPrefixOf_self_append headerLit
      (s.aPath ++ (bsep ++ (s.bSide ++ (nl :: (s.body ++ tail)))))),
    List.drop_left]
  simp only [splitFirst_bsep _ _ h1, splitFirst_nl _ _ h3, hb]

/-! The scanning loop on a well-formed sectioned diff. -/

lemma findallAux_match (fuel : Nat) (s f b r : List Char)
    (hm : matchAt s = some (f, b, r)) :
    findallAux (fuel + 1) s = (f, b) :: findallAux fuel r := by
  cases s with
  | nil =>
    rw [matchAt] at hm
    simp [headerLit] at hm
  | cons c t => simp [findallAux, hm]

lemma findallAux_skip (fuel : Nat) (c : Char) (t : List Char)
    (hm : matchAt (c :: t) = none) :
    findallAux (fuel + 1) (c :: t) = findallAux fuel t := by
  simp [findallAux, hm]

lemma matchAt_nl (t : List Char) : matchAt (nl :: t) = none := by
  have e : (('d' : Char) == '\n') = false := by decide
  have hne : headerLit.isPrefixOf (nl :: t) = false := by
    show List.isPrefixOf ('d' :: _) ('\n' :: t) = false
    rw [List.isPrefixOf_cons₂, e, Bool.false_and]
  rw [matchAt, if_neg (by simp [hne])]

lemma mkSection_length (s : RawSection) :
    (mkSection s).length = 17 + s.aPath.length + s.bSide.length + s.body.length := by
  simp [mkSection, headerLit, bsep]
  omega

lemma mkDiff_header (s : RawSection) (rest : List RawSection) :
    ∃ u, mkDiff (s :: rest) = headerLit ++ u := by
  cases rest with
  | nil => exact ⟨_, rfl⟩
  | cons s2 r2 =>
    refine ⟨s.aPath ++ (bsep ++ (s.bSide ++ (nl :: s.body))) ++ (nl :: mkDiff (s2 :: r2)), ?_⟩
    simp [mkDiff, mkSection, List.append_assoc]

lemma findallAux_sections (secs : List RawSection)
    (hwf : ∀ s ∈ secs, WFsec s = true) :
    ∀ fuel, (mkDiff secs).length ≤ fuel →
      findallAux fuel (mkDiff secs) = secs.map (fun s => (s.aPath, s.body)) := by
  induction secs with
  | nil => intro fuel _; cases fuel <;> rfl
  | cons s rest ih =>
    intro fuel hfuel
    have hs : WFsec s = true := hwf s (by simp)
    have hrest : ∀ s2 ∈ rest, WFsec s2 = true := fun s2 h2 => hwf s2 (by simp [h2])
    cases rest with
    | nil =>
      have hm : matchAt (mkDiff [s]) = some (s.aPath, s.body, []) := by
        have := matchAt_section s [] hs (Or.inl rfl)
        rw [List.append_nil] at this
        exact this
      cases fuel with
      | zero =>
        exfalso
        have hl := mkSection_length s
        have : (mkDiff [s]).length ≤ 0 := hfuel
        rw [show mkDiff [s] = mkSection s from rfl] at this
        omega
      | succ f =>
        rw [findallAux_match f _ _ _ _ hm]
        cases f <;> rfl
    | cons s2 r2 =>
      have hd : mkDiff (s :: s2 :: r2) = mkSection s ++ (nl :: mkDiff (s2 :: r2)) := rfl
      obtain ⟨u, hu⟩ := mkDiff_header s2 r2
      have hm : matchAt (mkDiff (s :: s2 :: r2))
          = some (s.aPath, s.body, nl :: mkDiff (s2 :: r2)) := by
        rw [hd, hu]
        have := matchAt_section s (nlHeader ++ u) hs (Or.inr ⟨u, rfl⟩)
        simpa [nlHeader] using this
      have hlen : (mkDiff (s :: s2 :: r2)).length
          = (mkSection s).length + 1 + (mkDiff (s2 :: r2)).length := by
        rw [hd]
        simp
        omega
      have hsec := mkSection_length s
      obtain ⟨f, hfe, hf⟩ : ∃ f, fuel = f + 2 ∧ (mkDiff (s2 :: r2)).length ≤ f := by
        refine ⟨fuel - 2, by omega, by omega⟩
      subst hfe
      rw [show f + 2 = (f + 1) + 1 from rfl, findallAux_match (f + 1) _ _ _ _ hm,
        findallAux_skip f nl _ (matchAt_nl _), ih hrest f hf]
      rfl

lemma findall_sections (secs : List RawSection)
    (hwf : ∀ s ∈ secs, WFsec s = true) :
    findall (mkDiff secs) = secs.map (fun s => (s.aPath, s.body)) :=
  findallAux_sections secs hwf _ le_rfl

lemma findall_no_header_aux (t : List Char) (h : occurs headerLit t = false) :
    ∀ fuel, findallAux fuel t = [] := by
  induction t with
  | nil => intro fuel; cases fuel <;> rfl
  | cons c rest ih =>
    intro fuel
    simp only [occurs, Bool.or_eq_false_iff] at h
    obtain ⟨h1, h2⟩ := h
    cases fuel with
    | zero => rfl
    | succ f =>
      have hm : matchAt (c :: rest) = none := by
        rw [matchAt, if_neg (by simp [h1])]
      rw [findallAux_skip f c rest hm]
      exact ih h2 f

lemma findall_no_header (t : List Char) (h : occurs headerLit t = false) :
    findall t = [] :=
  findall_no_header_aux t h _

/-! Claim C1: splitter record count and content. -/

/-- Diff text in which one header line is immediately followed by another
header line; the Python pattern absorbs the second header into the body of
the first match. -/
def c1cex : List Char := "diff --git a/x b/x\ndiff --git a/y b/y\nbody".data

/-- C1 counterexample: the diff text c1cex contains two file-header lines of
the form "diff --git a/<path> b/<path>", yet the Diff Splitter produces one
single record, refuting the claim that N headers always yield N records. -/
theorem C1_counterexample :
    headerLineCount c1cex = 2 ∧ (split_by_file c1cex).length = 1 := by decide

/-- C1 (amended): for diff texts assembled from newline-separated well-formed
file sections, each a header line "diff --git a/<pathA> b/<pathB>" followed
by a body with no newline-initiated header marker, the Splitter produces
exactly one record per section, in order, with rawDiff the body trimmed of
surrounding whitespace and the header line excluded; and for text containing
no occurrence of the header literal it produces the empty sequence. -/
theorem C1_splitter_sections (secs : List RawSection) (t : List Char)
    (hwf : ∀ s ∈ secs, WFsec s = true) (ht : occurs headerLit t = false) :
    split_by_file (mkDiff secs)
      = secs.map (fun s =>
          { filename := pyStrip s.aPath
            diff := pyStrip s.body
            is_apex := is_apex_file s.aPath
            explanation := []
            review_comments := []
            business_summary := [] })
    ∧ (split_by_file (mkDiff secs)).length = secs.length
    ∧ split_by_file t = [] := by
  have h1 := findall_sections secs hwf
  refine ⟨?_, ?_, ?_⟩
  · rw [split_by_file, h1, List.map_map]
    rfl
  · rw [split_by_file, h1]
    simp
  · rw [split_by_file, findall_no_header t ht]
    rfl

/-- Concrete well-formed section list used by the C1 witness. -/
def c1secs : List RawSection :=
  [⟨"a.cls".data, "a.cls".data, "@@ -1 +1 @@\n+x".data⟩,
   ⟨"b.txt".data, "b.txt".data, "@@ -2 +2 @@\n-y".data⟩]

theorem C1_splitter_sections_witness :
    split_by_file (mkDiff c1secs)
      = c1secs.map (fun s =>
          { filename := pyStrip s.aPath
            diff := pyStrip s.body
            is_apex := is_apex_file s.aPath
            explanation := []
            review_comments := []
            business_summary := [] })
    ∧ (split_by_file (mkDiff c1secs)).length = c1secs.length
    ∧ split_by_file "no file headers in this text".data = [] :=
  C1_splitter_sections c1secs "no file headers in this text".data
    (by decide) (by decide)

/-! Claim C4: the special-category flag versus the record filename. -/

/-- Diff text whose header carries a double space before the " b/" separator,
so the captured a-side path has a trailing space. -/
def c4cex : List Char := "diff --git a/x.cls  b/x.cls\nbody".data

/-- C4 counterexample: on c4cex the single record has filename "x.cls",
which ends in ".cls", yet its isSpecialCategory flag is false, because the
code computes the flag on the unstripped captured path "x.cls " while the
stored filename is stripped; this refutes the claimed equivalence between
the flag and the suffix of the record filename. -/
theorem C4_counterexample :
    (split_by_file c4cex).map (fun r => (r.filename, r.is_apex))
      = [("x.cls".data, false)]
    ∧ pyEndsWith ".cls".data "x.cls".data = true := by decide

/-- C4 (amended): for every record of the Diff Splitter, the special-category
flag equals the case-sensitive suffix test applied to the raw captured a-side
path before whitespace stripping, and the record filename is the stripped
form of that same raw path. -/
theorem C4_flag_from_raw_capture (d : List Char) (r : FileResult)
    (h : r ∈ split_by_file d) :
    ∃ raw body, (raw, body) ∈ findall d ∧ r.filename = pyStrip raw
      ∧ r.is_apex = is_apex_file raw := by
  rw [split_by_file] at h
  obtain ⟨m, hm, rfl⟩ := List.mem_map.mp h
  exact ⟨m.1, m.2, by simpa using hm, rfl, rfl⟩

theorem C4_flag_from_raw_capture_witness :
    ∃ raw body, (raw, body) ∈ findall c4cex
      ∧ ({ filename := "x.cls".data, diff := "body".data, is_apex := false,
           explanation := [], review_comments := [],
           business_summary := [] } : FileResult).filename = pyStrip raw
      ∧ ({ filename := "x.cls".data, diff := "body".data, is_apex := false,
           explanation := [], review_comments := [],
           business_summary := [] } : FileResult).is_apex = is_apex_file raw :=
  C4_flag_from_raw_capture c4cex
    { filename := "x.cls".data, diff := "body".data, is_apex := false,
      explanation := [], review_comments := [], business_summary := [] }
    (by decide)

/-! Claim C10: the filename comes from the a-side capture only. -/

/-- C10: for well-formed sectioned diffs, every field of every record of the
Diff Splitter is a function of the a-side path and of the body alone; the
b-side text of the header is discarded and no record field depends on it, in
particular for renames where the two sides differ. -/
theorem C10_filename_from_a_side (secs : List RawSection)
    (hwf : ∀ s ∈ secs, WFsec s = true) :
    (split_by_file (mkDiff secs)).map (fun r => r.filename)
        = secs.map (fun s => pyStrip s.aPath)
    ∧ (split_by_file (mkDiff secs)).map (fun r => r.diff)
        = secs.map (fun s => pyStrip s.body)
    ∧ (split_by_file (mkDiff secs)).map (fun r => r.is_apex)
        = secs.map (fun s => is_apex_file s.aPath) := by
  have h1 := findall_sections secs hwf
  refine ⟨?_, ?_, ?_⟩ <;>
    · rw [split_by_file, h1, List.map_map, List.map_map]
      rfl

/-- Concrete rename-shaped section used by the C10 witness: the a-side and
b-side paths differ and only the a-side path reaches the record. -/
def c10secs : List RawSection :=
  [⟨"old_name.txt".data, "new_name.txt".data, "@@ -1 +1 @@".data⟩]

theorem C10_filename_from_a_side_witness :
    (split_by_file (mkDiff c10secs)).map (fun r => r.filename)
        = c10secs.map (fun s => pyStrip s.aPath)
    ∧ (split_by_file (mkDiff c10secs)).map (fun r => r.diff)
        = c10secs.map (fun s => pyStrip s.body)
    ∧ (split_by_file (mkDiff c10secs)).map (fun r => r.is_apex)
        = c10secs.map (fun s => is_apex_file s.aPath) :=
  C10_filename_from_a_side c10secs (by decide)

/-! Idempotence of the strip operation, needed to state that stored analyzer
results carry no surrounding whitespace. -/

lemma dropWhile_dropWhile (p : Char → Bool) (l : List Char) :
    (l.dropWhile p).dropWhile p = l.dropWhile p := by
  induction l with
  | nil => rfl
  | cons c l ih =>
    by_cases h : p c
    · simp [List.dropWhile_cons, h, ih]
    · simp [List.dropWhile_cons, h]

lemma dropWhile_prefix_fixed (p : Char → Bool) (u t : List Char)
    (hu : u.dropWhile p = u) (ht : t <+: u) : t.dropWhile p = t := by
  cases t with
  | nil => rfl
  | cons x t' =>
    obtain ⟨r, hr⟩ := ht
    have hx : p x = false := by
      by_contra hpx
      rw [Bool.not_eq_false] at hpx
      rw [← hr, List.cons_append, List.dropWhile_cons_of_pos hpx] at hu
      have hlen := congrArg List.length hu
      have hle := (List.dropWhile_suffix (l := t' ++ r) p).length_le
      simp [List.length_append] at hlen hle
      omega
    rw [List.dropWhile_cons, if_neg (by simp [hx])]

lemma pyStrip_nil : pyStrip [] = [] := rfl

lemma pyStrip_idem (s : List Char) : pyStrip (pyStrip s) = pyStrip s := by
  have hufix : (s.dropWhile pyWs).dropWhile pyWs = s.dropWhile pyWs :=
    dropWhile_dropWhile pyWs s
  have h0 : (s.dropWhile pyWs).reverse.dropWhile pyWs <:+ (s.dropWhile pyWs).reverse :=
    List.dropWhile_suffix pyWs
  have htpre : ((s.dropWhile pyWs).reverse.dropWhile pyWs).reverse <+: s.dropWhile pyWs := by
    have h1 := List.reverse_prefix.mpr h0
    rwa [List.reverse_reverse] at h1
  have hA : (((s.dropWhile pyWs).reverse.dropWhile pyWs).reverse).dropWhile pyWs
      = ((s.dropWhile pyWs).reverse.dropWhile pyWs).reverse :=
    dropWhile_prefix_fixed pyWs _ _ hufix htpre
  have hps : pyStrip s = ((s.dropWhile pyWs).reverse.dropWhile pyWs).reverse := rfl
  show (((pyStrip s).dropWhile pyWs).reverse.dropWhile pyWs).reverse = pyStrip s
  rw [hps, hA, List.reverse_reverse, dropWhile_dropWhile]

/-! The File Analyzer and the Aggregator (src/main.py, process_files and
aggregate_summaries).  The completion collaborator is an oracle taking a
prompt and a token budget and returning generated text or a failure; the
embedding additionally records the sequence of completion calls made. -/

/-- Completion collaborator: prompt and token budget to generated text or a
transport failure carrying a message. -/
abbrev Completion := List Char → Nat → Except (List Char) (List Char)

/-- One recorded completion call: prompt and token budget. -/
abbrev Call := List Char × Nat

/-- Fixed instruction text of the explanation prompt. -/
def explainLit : List Char := "Explain the changes in this file:\n\n".data

/-- Fixed instruction text of the review prompt. -/
def reviewLit : List Char := "Review the following Apex code for best practices:\n\n".data

/-- Fixed instruction text of the business-summary prompt. -/
def bizLit : List Char := "Summarize this file change for business users:\n\n".data

/-- Review sub-step of process_files: an Apex record gets one review
completion with budget 500, stored trimmed; other records keep the empty
review text and cause no call. -/
def review_step (complete : Completion) (f : FileResult) :
    Except (List Char) (List Char × List Call) :=
  if f.is_apex then
    match complete (reviewLit ++ f.diff) 500 with
    | .error e => .error e
    | .ok r => .ok (pyStrip r, [(reviewLit ++ f.diff, 500)])
  else .ok ([], [])

/-- Embedding of process_files: for each record, an explanation completion
with budget 500, a review completion with budget 500 exactly when the record
is apex, and a business-summary completion with budget 300; results stored
trimmed; any failing call aborts the stage. -/
def process_files (complete : Completion) :
    List FileResult → Except (List Char) (List FileResult × List Call)
  | [] => .ok ([], [])
  | f :: rest =>
    match complete (explainLit ++ f.diff) 500 with
    | .error e => .error e
    | .ok expl =>
      match review_step complete f with
      | .error e => .error e
      | .ok rc =>
        match complete (bizLit ++ f.diff) 300 with
        | .error e => .error e
        | .ok biz =>
          match process_files complete rest with
          | .error e => .error e
          | .ok (fs, logRest) =>
            .ok ({ f with explanation := pyStrip expl
                        , review_comments := rc.1
                        , business_summary := pyStrip biz } :: fs,
                 (explainLit ++ f.diff, 500)
                   :: (rc.2 ++ ((bizLit ++ f.diff, 300) :: logRest)))

/-- Fixed text before the filename in the developer-summary prompt. -/
def changesLit : List Char := "Changes in ".data

/-- The developer-summary prompt: per file a line "Changes in <filename>:"
followed by the explanation, the blocks separated by blank lines. -/
def devPromptOf (files : List FileResult) : List Char :=
  List.intercalate "\n\n".data
    (files.map (fun f => changesLit ++ f.filename ++ (':' :: nl :: f.explanation)))

/-- The business-summary prompt: the business summaries in file order
separated by blank lines. -/
def bizPromptOf (files : List FileResult) : List Char :=
  List.intercalate "\n\n".data (files.map (fun f => f.business_summary))

/-- Embedding of aggregate_summaries: one completion call with budget 400 on
the developer prompt and one with budget 300 on the business prompt, results
stored trimmed; either call failing aborts the stage. -/
def aggregate_summaries (complete : Completion) (files : List FileResult) :
    Except (List Char) ((List Char × List Char) × List Call) :=
  match complete (devPromptOf files) 400 with
  | .error e => .error e
  | .ok dev =>
    match complete (bizPromptOf files) 300 with
    | .error e => .error e
    | .ok biz =>
      .ok ((pyStrip dev, pyStrip biz), [(devPromptOf files, 400), (bizPromptOf files, 300)])

/-- Pipeline state after a full run (the PRState TypedDict of src/main.py). -/
structure PRStateV where
  pr_url : List Char
  diff : List Char
  files : List FileResult
  dev_summary : List Char
  business_summary : List Char
deriving DecidableEq, Repr

/-- Embedding of graph.invoke: fetch, split, process, aggregate in sequence,
the first failure aborting the run. -/
def graph_invoke (fetchRes : Except (List Char) (List Char)) (complete : Completion)
    (pr_url : List Char) : Except (List Char) PRStateV :=
  match fetchRes with
  | .error e => .error e
  | .ok diff =>
    match process_files complete (split_by_file diff) with
    | .error e => .error e
    | .ok (ufiles, _) =>
      match aggregate_summaries complete ufiles with
      | .error e => .error e
      | .ok ((dev, biz), _) =>
        .ok { pr_url := pr_url, diff := diff, files := ufiles,
              dev_summary := dev, business_summary := biz }

/-- Oracle wrapper for a completion collaborator that always succeeds. -/
def okOracle (out : List Char → Nat → List Char) : Completion :=
  fun p b => .ok (out p b)

lemma process_files_okOracle (out : List Char → Nat → List Char)
    (files : List FileResult) :
    process_files (okOracle out) files = .ok
      (files.map (fun f =>
          { f with explanation := pyStrip (out (explainLit ++ f.diff) 500)
                 , review_comments :=
                     if f.is_apex then pyStrip (out (reviewLit ++ f.diff) 500) else []
                 , business_summary := pyStrip (out (bizLit ++ f.diff) 300) }),
       files.flatMap (fun f =>
          (explainLit ++ f.diff, 500)
            :: ((if f.is_apex then [(reviewLit ++ f.diff, 500)] else [])
              ++ [(bizLit ++ f.diff, 300)]))) := by
  induction files with
  | nil => rfl
  | cons f rest ih =>
    rw [process_files, ih]
    cases hap : f.is_apex <;> simp [okOracle, review_step, hap]

/-- C6: on any run in which the completion collaborator answers every call,
the File Analyzer issues, per record in order, an explanation call with
prompt the fixed instruction text plus the record rawDiff and budget 500,
then a review call with budget 500 exactly when the record is special, then
a business-summary call with budget 300; every stored result is trimmed of
surrounding whitespace, and the review text stays empty for every
non-special record. -/
theorem C6_file_analyzer (out : List Char → Nat → List Char)
    (files : List FileResult) :
    ∃ ufiles log, process_files (okOracle out) files = .ok (ufiles, log)
    ∧ log = files.flatMap (fun f =>
        (explainLit ++ f.diff, 500)
          :: ((if f.is_apex then [(reviewLit ++ f.diff, 500)] else [])
            ++ [(bizLit ++ f.diff, 300)]))
    ∧ ufiles = files.map (fun f =>
        { f with explanation := pyStrip (out (explainLit ++ f.diff) 500)
               , review_comments :=
                   if f.is_apex then pyStrip (out (reviewLit ++ f.diff) 500) else []
               , business_summary := pyStrip (out (bizLit ++ f.diff) 300) })
    ∧ (∀ uf ∈ ufiles, pyStrip uf.explanation = uf.explanation
        ∧ pyStrip uf.review_comments = uf.review_comments
        ∧ pyStrip uf.business_summary = uf.business_summary)
    ∧ (∀ uf ∈ ufiles, uf.is_apex = false → uf.review_comments = []) := by
  refine ⟨_, _, process_files_okOracle out files, rfl, rfl, ?_, ?_⟩
  · intro uf huf
    obtain ⟨f, _, rfl⟩ := List.mem_map.mp huf
    refine ⟨pyStrip_idem _, ?_, pyStrip_idem _⟩
    by_cases hap : f.is_apex <;> simp [hap, pyStrip_idem, pyStrip_nil]
  · intro uf huf hap
    obtain ⟨f, _, rfl⟩ := List.mem_map.mp huf
    simp only at hap
    simp [hap]

/-- C7: on any run in which the completion collaborator answers every call,
the Aggregator makes exactly two completion calls: first the developer
summary, whose prompt concatenates per file in order a line naming the file
followed by its explanation with blank-line separation, at budget 400, and
then the business summary, whose prompt is the blank-line separated
concatenation of the per-file business summaries in order, at budget 300;
both results are stored trimmed. -/
theorem C7_aggregator (out : List Char → Nat → List Char)
    (files : List FileResult) :
    ∃ res log, aggregate_summaries (okOracle out) files = .ok (res, log)
    ∧ log.length = 2
    ∧ log = [(devPromptOf files, 400), (bizPromptOf files, 300)]
    ∧ devPromptOf files = List.intercalate "\n\n".data
        (files.map (fun f => changesLit ++ f.filename ++ (':' :: nl :: f.explanation)))
    ∧ bizPromptOf files = List.intercalate "\n\n".data
        (files.map (fun f => f.business_summary))
    ∧ res.1 = pyStrip (out (devPromptOf files) 400)
    ∧ res.2 = pyStrip (out (bizPromptOf files) 300)
    ∧ pyStrip res.1 = res.1 ∧ pyStrip res.2 = res.2 :=
  ⟨_, _, rfl, rfl, rfl, rfl, rfl, rfl, rfl, pyStrip_idem _, pyStrip_idem _⟩

/-! The Job Registry (src/main.py, job_store with analyze_pr and run_job).

Python dict records are embedded as association lists so that presence and
absence of a field are observable.  The submission handler inserts a record
with status processing and a null result; the worker thread replaces the
record exactly once, with a done record carrying the result or an error
record carrying the message.  Traces of these store operations are modelled
by events; trace validity captures what the code guarantees: job identifiers
are fresh at submission, and each job finishes at most once, only after
being submitted. -/

/-- Values stored in job-record fields. -/
inductive JField where
  | vnull
  | vstr (s : List Char)
  | vstate (st : PRStateV)
deriving DecidableEq, Repr

/-- A job record: an association list, like the Python dict. -/
abbrev JobRec := List (List Char × JField)

/-- The job store: job id to record. -/
abbrev Store := List (List Char × JobRec)

/-- Key "status". -/
def kStatus : List Char := "status".data

/-- Key "result". -/
def kResult : List Char := "result".data

/-- Key "error". -/
def kError : List Char := "error".data

/-- Status value "processing". -/
def sProcessing : List Char := "processing".data

/-- Status value "done". -/
def sDone : List Char := "done".data

/-- Status value "error". -/
def sError : List Char := "error".data

/-- Record written at submission: status processing, result null. -/
def procRec : JobRec := [(kStatus, JField.vstr sProcessing), (kResult, JField.vnull)]

/-- Record written on success: status done, result the final state. -/
def doneRec (st : PRStateV) : JobRec :=
  [(kStatus, JField.vstr sDone), (kResult, JField.vstate st)]

/-- Record written on failure: status error, error the message text. -/
def errRec (m : List Char) : JobRec :=
  [(kStatus, JField.vstr sError), (kError, JField.vstr m)]

/-- Dict assignment: replace the record of the id or append a new entry. -/
def setJob : Store → List Char → JobRec → Store
  | [], id, rec => [(id, rec)]
  | (id2, rec2) :: rest, id, rec =>
    if id2 = id then (id, rec) :: rest else (id2, rec2) :: setJob rest id rec

/-- Dict lookup of a job record. -/
def getJob : Store → List Char → Option JobRec
  | [], _ => none
  | (id2, rec2) :: rest, id => if id2 = id then some rec2 else getJob rest id

/-- Lookup of a field inside a record. -/
def recField : JobRec → List Char → Option JField
  | [], _ => none
  | (k, v) :: rest, key => if k = key then some v else recField rest key

/-- Presence of a field in a record, the Python membership test on the dict. -/
def hasField (r : JobRec) (k : List Char) : Bool := (recField r k).isSome

/-- Status field of the record of a job id. -/
def statusOf (st : Store) (id : List Char) : Option JField :=
  (getJob st id).bind (fun r => recField r kStatus)

/-- Store events: submission inserts the processing record; a worker thread
finishing successfully or exceptionally replaces it. -/
inductive Ev where
  | submit (id : List Char)
  | finishOk (id : List Char) (st : PRStateV)
  | finishErr (id : List Char) (msg : List Char)
deriving DecidableEq, Repr

/-- Job id of an event. -/
def evId : Ev → List Char
  | .submit id => id
  | .finishOk id _ => id
  | .finishErr id _ => id

/-- Whether an event is a worker-thread completion. -/
def isFinish : Ev → Bool
  | .submit _ => false
  | .finishOk _ _ => true
  | .finishErr _ _ => true

/-- Effect of one event on the store, as the code performs it. -/
def applyEv (s : Store) : Ev → Store
  | .submit id => setJob s id procRec
  | .finishOk id st => setJob s id (doneRec st)
  | .finishErr id m => setJob s id (errRec m)

/-- Store reached after a trace of events. -/
def runStore (tr : List Ev) : Store := tr.foldl applyEv []

/-- Embedding of run_job: the worker thread turns the pipeline outcome into
the single finishing store write for its job id. -/
def run_job (id : List Char) (outcome : Except (List Char) PRStateV) : Ev :=
  match outcome with
  | .ok st => .finishOk id st
  | .error m => .finishErr id m

/-- Traces the code can generate: submissions carry fresh ids (the uuid4
generation scheme), and each job finishes at most once, only after its
submission, by its single worker thread. -/
inductive ValidTrace : List Ev → Prop
  | nil : ValidTrace []
  | submit (tr : List Ev) (id : List Char) (hv : ValidTrace tr)
      (hfresh : ∀ e ∈ tr, evId e ≠ id) : ValidTrace (tr ++ [Ev.submit id])
  | finish (tr : List Ev) (e : Ev) (hv : ValidTrace tr) (hf : isFinish e = true)
      (hsub : Ev.submit (evId e) ∈ tr)
      (honce : ∀ e2 ∈ tr, isFinish e2 = true → evId e2 ≠ evId e) :
      ValidTrace (tr ++ [e])

/-! Store lemmas. -/

lemma getJob_setJob_self (st : Store) (id : List Char) (r : JobRec) :
    getJob (setJob st id r) id = some r := by
  induction st with
  | nil => simp [setJob, getJob]
  | cons p rest ih =>
    obtain ⟨k, v⟩ := p
    by_cases h : k = id
    · simp [setJob, getJob, h]
    · simp [setJob, getJob, h, ih]

lemma getJob_setJob_other (st : Store) (id id2 : List Char) (r : JobRec)
    (h : id2 ≠ id) : getJob (setJob st id2 r) id = getJob st id := by
  induction st with
  | nil => simp [setJob, getJob, h]
  | cons p rest ih =>
    obtain ⟨k, v⟩ := p
    by_cases hk : k = id2
    · subst hk
      simp [setJob, getJob, h]
    · simp [setJob, getJob, hk, ih]

lemma runStore_snoc (tr : List Ev) (e : Ev) :
    runStore (tr ++ [e]) = applyEv (runStore tr) e := by
  simp [runStore, List.foldl_append]

lemma getJob_applyEv_other (s : Store) (e : Ev) (id : List Char)
    (h : evId e ≠ id) : getJob (applyEv s e) id = getJob s id := by
  cases e with
  | submit id2 => exact getJob_setJob_other s id id2 procRec h
  | finishOk id2 st => exact getJob_setJob_other s id id2 (doneRec st) h
  | finishErr id2 m => exact getJob_setJob_other s id id2 (errRec m) h

/-! Trace lemmas. -/

lemma snoc_inj {α : Type} (l1 l2 : List α) (a b : α) (h : l1 ++ [a] = l2 ++ [b]) :
    l1 = l2 ∧ a = b := by
  have h2 := congrArg List.reverse h
  simp at h2
  exact ⟨h2.2, h2.1⟩

lemma validTrace_snoc (tr : List Ev) (e : Ev) (h : ValidTrace (tr ++ [e])) :
    ValidTrace tr ∧
    ((∀ e2 ∈ tr, evId e2 ≠ evId e) ∨
     (isFinish e = true ∧ Ev.submit (evId e) ∈ tr ∧
      ∀ e2 ∈ tr, isFinish e2 = true → evId e2 ≠ evId e)) := by
  generalize hgen : tr ++ [e] = l at h
  cases h with
  | nil => exact absurd hgen (List.append_ne_nil_of_right_ne_nil tr (by simp))
  | submit tr2 id hv hfresh =>
    obtain ⟨rfl, he⟩ := snoc_inj tr tr2 e (Ev.submit id) hgen
    subst he
    exact ⟨hv, Or.inl (fun e2 h2 => hfresh e2 h2)⟩
  | finish tr2 e2 hv hf hsub honce =>
    obtain ⟨rfl, he⟩ := snoc_inj tr tr2 e e2 hgen
    subst he
    exact ⟨hv, Or.inr ⟨hf, hsub, honce⟩⟩

lemma validTrace_append_left (tr tr2 : List Ev) :
    ValidTrace (tr ++ tr2) → ValidTrace tr := by
  induction tr2 using List.reverseRecOn with
  | nil => intro h; simpa using h
  | append_singleton t2 e ih =>
    intro h
    rw [← List.append_assoc] at h
    exact ih (validTrace_snoc _ _ h).1

lemma store_rec_shape (tr : List Ev) (id : List Char) (rec : JobRec)
    (h : getJob (runStore tr) id = some rec) :
    rec = procRec ∨ (∃ st, rec = doneRec st) ∨ (∃ m, rec = errRec m) := by
  induction tr using List.reverseRecOn with
  | nil => simp [runStore, getJob] at h
  | append_singleton t e ih =>
    rw [runStore_snoc] at h
    cases e with
    | submit id2 =>
      by_cases he : id2 = id
      · subst he
        rw [show applyEv (runStore t) (Ev.submit id2) = setJob (runStore t) id2 procRec
            from rfl, getJob_setJob_self] at h
        exact Or.inl (Option.some_injective _ h).symm
      · rw [getJob_applyEv_other _ _ _ (by simpa [evId] using he)] at h
        exact ih h
    | finishOk id2 st =>
      by_cases he : id2 = id
      · subst he
        rw [show applyEv (runStore t) (Ev.finishOk id2 st)
            = setJob (runStore t) id2 (doneRec st) from rfl, getJob_setJob_self] at h
        exact Or.inr (Or.inl ⟨st, (Option.some_injective _ h).symm⟩)
      · rw [getJob_applyEv_other _ _ _ (by simpa [evId] using he)] at h
        exact ih h
    | finishErr id2 m =>
      by_cases he : id2 = id
      · subst he
        rw [show applyEv (runStore t) (Ev.finishErr id2 m)
            = setJob (runStore t) id2 (errRec m) from rfl, getJob_setJob_self] at h
        exact Or.inr (Or.inr ⟨m, (Option.some_injective _ h).symm⟩)
      · rw [getJob_applyEv_other _ _ _ (by simpa [evId] using he)] at h
        exact ih h

/-! Status values determine the finishing events present in a trace. -/

lemma statusOf_setJob_self (s : Store) (id : List Char) (r : JobRec) :
    statusOf (setJob s id r) id = recField r kStatus := by
  rw [statusOf, getJob_setJob_self]
  rfl

lemma statusOf_applyEv_other (s : Store) (e : Ev) (id : List Char) (h : evId e ≠ id) :
    statusOf (applyEv s e) id = statusOf s id := by
  rw [statusOf, statusOf, getJob_applyEv_other s e id h]

lemma recField_procRec_status :
    recField procRec kStatus = some (JField.vstr sProcessing) := rfl

lemma recField_doneRec_status (st : PRStateV) :
    recField (doneRec st) kStatus = some (JField.vstr sDone) := rfl

lemma recField_errRec_status (m : List Char) :
    recField (errRec m) kStatus = some (JField.vstr sError) := rfl

lemma status_done_has_finishOk (tr : List Ev) (id : List Char)
    (h : statusOf (runStore tr) id = some (JField.vstr sDone)) :
    ∃ st, Ev.finishOk id st ∈ tr := by
  induction tr using List.reverseRecOn with
  | nil => simp [statusOf, runStore, getJob] at h
  | append_singleton t e ih =>
    rw [runStore_snoc] at h
    cases e with
    | submit id2 =>
      by_cases he : id2 = id
      · subst he
        rw [show applyEv (runStore t) (Ev.submit id2) = setJob (runStore t) id2 procRec
            from rfl, statusOf_setJob_self, recField_procRec_status] at h
        exact absurd h (by decide)
      · rw [statusOf_applyEv_other _ _ _ (by simpa [evId] using he)] at h
        obtain ⟨st, hst⟩ := ih h
        exact ⟨st, by simp [hst]⟩
    | finishOk id2 st =>
      by_cases he : id2 = id
      · subst he
        exact ⟨st, by simp⟩
      · rw [statusOf_applyEv_other _ _ _ (by simpa [evId] using he)] at h
        obtain ⟨st2, hst⟩ := ih h
        exact ⟨st2, by simp [hst]⟩
    | finishErr id2 m =>
      by_cases he : id2 = id
      · subst he
        rw [show applyEv (runStore t) (Ev.finishErr id2 m) = setJob (runStore t) id2 (errRec m)
            from rfl, statusOf_setJob_self, recField_errRec_status] at h
        exact absurd h (by decide)
      · rw [statusOf_applyEv_other _ _ _ (by simpa [evId] using he)] at h
        obtain ⟨st2, hst⟩ := ih h
        exact ⟨st2, by simp [hst]⟩

lemma status_error_has_finishErr (tr : List Ev) (id : List Char)
    (h : statusOf (runStore tr) id = some (JField.vstr sError)) :
    ∃ m, Ev.finishErr id m ∈ tr := by
  induction tr using List.reverseRecOn with
  | nil => simp [statusOf, runStore, getJob] at h
  | append_singleton t e ih =>
    rw [runStore_snoc] at h
    cases e with
    | submit id2 =>
      by_cases he : id2 = id
      · subst he
        rw [show applyEv (runStore t) (Ev.submit id2) = setJob (runStore t) id2 procRec
            from rfl, statusOf_setJob_self, recField_procRec_status] at h
        exact absurd h (by decide)
      · rw [statusOf_applyEv_other _ _ _ (by simpa [evId] using he)] at h
        obtain ⟨m, hm⟩ := ih h
        exact ⟨m, by simp [hm]⟩
    | finishOk id2 st =>
      by_cases he : id2 = id
      · subst he
        rw [show applyEv (runStore t) (Ev.finishOk id2 st)
            = setJob (runStore t) id2 (doneRec st) from rfl, statusOf_setJob_self,
            recField_doneRec_status] at h
        exact absurd h (by decide)
      · rw [statusOf_applyEv_other _ _ _ (by simpa [evId] using he)] at h
        obtain ⟨m, hm⟩ := ih h
        exact ⟨m, by simp [hm]⟩
    | finishErr id2 m =>
      by_cases he : id2 = id
      · subst he
        exact ⟨m, by simp⟩
      · rw [statusOf_applyEv_other _ _ _ (by simpa [evId] using he)] at h
        obtain ⟨m2, hm⟩ := ih h
        exact ⟨m2, by simp [hm]⟩

/-! Stability: once a job is finished nothing touches its record again. -/

lemma no_more_events (tr : List Ev) (id : List Char)
    (hfin : ∃ e ∈ tr, isFinish e = true ∧ evId e = id) :
    ∀ tr2, ValidTrace (tr ++ tr2) → ∀ e ∈ tr2, evId e ≠ id := by
  intro tr2
  induction tr2 using List.reverseRecOn with
  | nil => intro _ e he; simp at he
  | append_singleton t2 e0 ih =>
    intro hv e he
    rw [← List.append_assoc] at hv
    obtain ⟨hv1, hcase⟩ := validTrace_snoc _ _ hv
    rw [List.mem_append] at he
    rcases he with he | he
    · exact ih hv1 e he
    · simp at he
      subst he
      obtain ⟨ef, hef, hff, hfid⟩ := hfin
      intro hid
      rcases hcase with hfresh | ⟨_, _, honce0⟩
      · exact hfresh ef (by simp [List.mem_append, hef]) (by rw [hfid, hid])
      · exact honce0 ef (by simp [List.mem_append, hef]) hff (by rw [hfid, hid])

lemma runStore_untouched (tr tr2 : List Ev) (id : List Char)
    (h : ∀ e ∈ tr2, evId e ≠ id) :
    getJob (runStore (tr ++ tr2)) id = getJob (runStore tr) id := by
  induction tr2 using List.reverseRecOn with
  | nil => simp
  | append_singleton t2 e ih =>
    rw [← List.append_assoc, runStore_snoc,
      getJob_applyEv_other _ _ _ (h e (by simp))]
    exact ih (fun e2 he2 => h e2 (by simp [he2]))

lemma getJob_applyEv_isSome (s : Store) (e : Ev) (id : List Char)
    (h : (getJob s id).isSome = true) : (getJob (applyEv s e) id).isSome = true := by
  by_cases hid : evId e = id
  · cases e with
    | submit id2 =>
      have : id2 = id := hid
      subst this
      rw [show applyEv s (Ev.submit id2) = setJob s id2 procRec from rfl,
        getJob_setJob_self]
      rfl
    | finishOk id2 st =>
      have : id2 = id := hid
      subst this
      rw [show applyEv s (Ev.finishOk id2 st) = setJob s id2 (doneRec st) from rfl,
        getJob_setJob_self]
      rfl
    | finishErr id2 m =>
      have : id2 = id := hid
      subst this
      rw [show applyEv s (Ev.finishErr id2 m) = setJob s id2 (errRec m) from rfl,
        getJob_setJob_self]
      rfl
  · rw [getJob_applyEv_other _ _ _ hid]
    exact h

lemma getJob_isSome_mono (tr tr2 : List Ev) (id : List Char)
    (h : (getJob (runStore tr) id).isSome = true) :
    (getJob (runStore (tr ++ tr2)) id).isSome = true := by
  induction tr2 using List.reverseRecOn with
  | nil => simpa using h
  | append_singleton t2 e ih =>
    rw [← List.append_assoc, runStore_snoc]
    exact getJob_applyEv_isSome _ _ _ ih

lemma finish_count_le_one (tr : List Ev) (hv : ValidTrace tr) (id : List Char) :
    tr.countP (fun e => isFinish e && decide (evId e = id)) ≤ 1 := by
  induction hv with
  | nil => simp
  | submit tr2 id2 hv2 hfresh ih =>
    rw [List.countP_append]
    simpa [List.countP_cons, isFinish] using ih
  | finish tr2 e hv2 hf hsub honce ih =>
    rw [List.countP_append]
    by_cases hid : evId e = id
    · have hzero : tr2.countP (fun e2 => isFinish e2 && decide (evId e2 = id)) = 0 := by
        rw [List.countP_eq_zero]
        intro e2 he2
        simp only [Bool.and_eq_true, decide_eq_true_eq, not_and]
        intro hf2 hid2
        exact honce e2 he2 hf2 (by rw [hid2, hid])
      have hone : List.countP (fun e2 => isFinish e2 && decide (evId e2 = id)) [e] ≤ 1 := by
        simp [List.countP_cons]
        split <;> omega
      omega
    · have hone : List.countP (fun e2 => isFinish e2 && decide (evId e2 = id)) [e] = 0 := by
        simp [List.countP_cons, hid]
      omega

/-- C2: along every trace the code can generate, a job record is created
with status processing at submission; a done or error status, once reached,
persists through every extension of the trace, so the status changes at most
once and never moves between done and error or back to processing; a record,
once present, is present in every later store, so no job is ever deleted. -/
theorem C2_job_lifecycle (tr tr2 : List Ev) (id : List Char) (st : PRStateV)
    (msg : List Char) (hv : ValidTrace (tr ++ tr2)) :
    statusOf (runStore (tr ++ [Ev.submit id])) id = some (JField.vstr sProcessing)
    ∧ statusOf (runStore (tr ++ [Ev.finishOk id st])) id = some (JField.vstr sDone)
    ∧ statusOf (runStore (tr ++ [Ev.finishErr id msg])) id = some (JField.vstr sError)
    ∧ ((getJob (runStore tr) id).isSome = true →
        (getJob (runStore (tr ++ tr2)) id).isSome = true)
    ∧ (statusOf (runStore tr) id = some (JField.vstr sDone) →
        statusOf (runStore (tr ++ tr2)) id = some (JField.vstr sDone))
    ∧ (statusOf (runStore tr) id = some (JField.vstr sError) →
        statusOf (runStore (tr ++ tr2)) id = some (JField.vstr sError))
    ∧ (tr ++ tr2).countP (fun e => isFinish e && decide (evId e = id)) ≤ 1 := by
  refine ⟨?_, ?_, ?_, ?_, ?_, ?_, ?_⟩
  · rw [runStore_snoc,
      show applyEv (runStore tr) (Ev.submit id) = setJob (runStore tr) id procRec from rfl,
      statusOf_setJob_self, recField_procRec_status]
  · rw [runStore_snoc,
      show applyEv (runStore tr) (Ev.finishOk id st) = setJob (runStore tr) id (doneRec st)
        from rfl,
      statusOf_setJob_self, recField_doneRec_status]
  · rw [runStore_snoc,
      show applyEv (runStore tr) (Ev.finishErr id msg) = setJob (runStore tr) id (errRec msg)
        from rfl,
      statusOf_setJob_self, recField_errRec_status]
  · exact getJob_isSome_mono tr tr2 id
  · intro h
    obtain ⟨st, hst⟩ := status_done_has_finishOk tr id h
    have hall := no_more_events tr id ⟨Ev.finishOk id st, hst, rfl, rfl⟩ tr2 hv
    rw [statusOf, runStore_untouched tr tr2 id hall]
    exact h
  · intro h
    obtain ⟨m, hm⟩ := status_error_has_finishErr tr id h
    have hall := no_more_events tr id ⟨Ev.finishErr id m, hm, rfl, rfl⟩ tr2 hv
    rw [statusOf, runStore_untouched tr tr2 id hall]
    exact h
  · exact finish_count_le_one (tr ++ tr2) hv id

/-- Concrete job id used in the registry witnesses. -/
def j1 : List Char := "job-1".data

/-- Concrete pipeline state used in the registry witnesses. -/
def st0 : PRStateV :=
  { pr_url := [], diff := [], files := [], dev_summary := [], business_summary := [] }

lemma validTrace_example : ValidTrace ([Ev.submit j1] ++ [Ev.finishOk j1 st0]) := by
  have h1 : ValidTrace ([] ++ [Ev.submit j1]) :=
    ValidTrace.submit [] j1 ValidTrace.nil (by simp)
  have h2 := ValidTrace.finish [Ev.submit j1] (Ev.finishOk j1 st0)
    (by simpa using h1) rfl (by simp [evId]) ?_
  · exact h2
  · intro e2 he2 hf2
    simp at he2
    subst he2
    simp [isFinish] at hf2

theorem C2_job_lifecycle_witness :
    statusOf (runStore ([Ev.submit j1] ++ [Ev.submit j1])) j1
        = some (JField.vstr sProcessing)
    ∧ statusOf (runStore ([Ev.submit j1] ++ [Ev.finishOk j1 st0])) j1
        = some (JField.vstr sDone)
    ∧ statusOf (runStore ([Ev.submit j1] ++ [Ev.finishErr j1 "boom".data])) j1
        = some (JField.vstr sError)
    ∧ ((getJob (runStore [Ev.submit j1]) j1).isSome = true →
        (getJob (runStore ([Ev.submit j1] ++ [Ev.finishOk j1 st0])) j1).isSome = true)
    ∧ (statusOf (runStore [Ev.submit j1]) j1 = some (JField.vstr sDone) →
        statusOf (runStore ([Ev.submit j1] ++ [Ev.finishOk j1 st0])) j1
          = some (JField.vstr sDone))
    ∧ (statusOf (runStore [Ev.submit j1]) j1 = some (JField.vstr sError) →
        statusOf (runStore ([Ev.submit j1] ++ [Ev.finishOk j1 st0])) j1
          = some (JField.vstr sError))
    ∧ ([Ev.submit j1] ++ [Ev.finishOk j1 st0]).countP
        (fun e => isFinish e && decide (evId e = j1)) ≤ 1 :=
  C2_job_lifecycle [Ev.submit j1] [Ev.finishOk j1 st0] j1 st0 "boom".data
    validTrace_example

/-- C3 counterexample: immediately after submission a job record reachable
from the registry has status processing and nevertheless contains the result
field (with a null value), refuting the claim that the result field is
present only when the status is done. -/
theorem C3_counterexample :
    statusOf (runStore [Ev.submit j1]) j1 = some (JField.vstr sProcessing)
    ∧ (getJob (runStore [Ev.submit j1]) j1).map (fun r => hasField r kResult)
        = some true := by decide

/-- C3 (amended): in every reachable job record, the result field is present
exactly when the status is processing or done, null while processing and the
final state when done; the error field is present exactly when the status is
error, and then it carries the message while the result field is absent; a
job whose pipeline fails at the fetch stage is finished with the error record
carrying the propagated fetch failure message and no result field. -/
theorem C3_record_fields (tr : List Ev) (id : List Char) (rec : JobRec)
    (h : getJob (runStore tr) id = some rec) :
    (hasField rec kResult
        = (decide (recField rec kStatus = some (JField.vstr sProcessing))
          || decide (recField rec kStatus = some (JField.vstr sDone))))
    ∧ (hasField rec kError = decide (recField rec kStatus = some (JField.vstr sError)))
    ∧ (recField rec kStatus = some (JField.vstr sProcessing) →
        recField rec kResult = some JField.vnull)
    ∧ (recField rec kStatus = some (JField.vstr sDone) →
        ∃ st, recField rec kResult = some (JField.vstate st))
    ∧ (recField rec kStatus = some (JField.vstr sError) →
        (∃ m, recField rec kError = some (JField.vstr m)) ∧ recField rec kResult = none)
    ∧ (∀ (s : Store) (id2 m pr_url : List Char) (complete : Completion),
        getJob (applyEv s (run_job id2 (graph_invoke (Except.error m) complete pr_url))) id2
          = some (errRec m)) := by
  have hshape := store_rec_shape tr id rec h
  refine ⟨?_, ?_, ?_, ?_, ?_, ?_⟩
  · rcases hshape with rfl | ⟨st, rfl⟩ | ⟨m, rfl⟩ <;> rfl
  · rcases hshape with rfl | ⟨st, rfl⟩ | ⟨m, rfl⟩ <;> rfl
  · rcases hshape with rfl | ⟨st, rfl⟩ | ⟨m, rfl⟩
    · intro _; rfl
    · intro h2
      rw [recField_doneRec_status] at h2
      exact absurd h2 (by decide)
    · intro h2
      rw [recField_errRec_status] at h2
      exact absurd h2 (by decide)
  · rcases hshape with rfl | ⟨st, rfl⟩ | ⟨m, rfl⟩
    · intro h2
      rw [recField_procRec_status] at h2
      exact absurd h2 (by decide)
    · intro _; exact ⟨st, rfl⟩
    · intro h2
      rw [recField_errRec_status] at h2
      exact absurd h2 (by decide)
  · rcases hshape with rfl | ⟨st, rfl⟩ | ⟨m, rfl⟩
    · intro h2
      rw [recField_procRec_status] at h2
      exact absurd h2 (by decide)
    · intro h2
      rw [recField_doneRec_status] at h2
      exact absurd h2 (by decide)
    · intro _; exact ⟨⟨m, rfl⟩, rfl⟩
  · intro s id2 m pr_url complete
    exact getJob_setJob_self s id2 (errRec m)

theorem C3_record_fields_witness :
    (hasField procRec kResult
        = (decide (recField procRec kStatus = some (JField.vstr sProcessing))
          || decide (recField procRec kStatus = some (JField.vstr sDone))))
    ∧ (hasField procRec kError
        = decide (recField procRec kStatus = some (JField.vstr sError)))
    ∧ (recField procRec kStatus = some (JField.vstr sProcessing) →
        recField procRec kResult = some JField.vnull)
    ∧ (recField procRec kStatus = some (JField.vstr sDone) →
        ∃ st, recField procRec kResult = some (JField.vstate st))
    ∧ (recField procRec kStatus = some (JField.vstr sError) →
        (∃ m, recField procRec kError = some (JField.vstr m))
          ∧ recField procRec kResult = none)
    ∧ (∀ (s : Store) (id2 m pr_url : List Char) (complete : Completion),
        getJob (applyEv s (run_job id2 (graph_invoke (Except.error m) complete pr_url))) id2
          = some (errRec m)) :=
  C3_record_fields [Ev.submit j1] j1 procRec (by decide)

/-! The PR Approval Service (src/main.py, approve_pr).

The code searches the URL with the raw-string pattern

  github.com/(.*?)/(.*?)/pull/(\\d+)

in which the doubled backslash denotes one literal backslash character, so
the third group matches a literal backslash followed by one or more letters
d rather than digits.  The matcher below reproduces the search semantics:
leftmost start position, the unescaped dot matching any non-newline
character, both lazy groups trying each following slash in turn as their
separator and extending on failure, never across a newline. -/

/-- Literal char list "github". -/
def githubLit : List Char := "github".data

/-- Literal char list "com/". -/
def comLit : List Char := "com/".data

/-- Literal char list "pull/". -/
def pullLit : List Char := "pull/".data

/-- Tail of the pattern: one literal backslash then a greedy run of at least
one letter d, all captured as the third group. -/
def matchSlashD : List Char → Option (List Char)
  | '\\' :: 'd' :: rest => some ('\\' :: 'd' :: rest.takeWhile (fun c => c = 'd'))
  | _ => none

/-- After a candidate separator slash: the literal "pull/" then the tail. -/
def tryPull (s : List Char) : Option (List Char) :=
  if pullLit.isPrefixOf s then matchSlashD (s.drop pullLit.length) else none

/-- Lazy scan of the second group: try each slash in turn as the separator
before "pull/", extending the group on failure, never across a newline. -/
def tryCap2 : List Char → List Char → Option (List Char × List Char)
  | _, [] => none
  | acc, c :: rest =>
    if c = '/' then
      match tryPull rest with
      | some c3 => some (acc.reverse, c3)
      | none => tryCap2 (c :: acc) rest
    else if c = nl then none
    else tryCap2 (c :: acc) rest

/-- Lazy scan of the first group, with the full second-group search after
each candidate separator. -/
def tryCap1 : List Char → List Char → Option (List Char × List Char × List Char)
  | _, [] => none
  | acc, c :: rest =>
    if c = '/' then
      match tryCap2 [] rest with
      | some (c2, c3) => some (acc.reverse, c2, c3)
      | none => tryCap1 (c :: acc) rest
    else if c = nl then none
    else tryCap1 (c :: acc) rest

/-- Attempt the whole approval pattern at the start of s: the literal
"github", one arbitrary non-newline character for the unescaped dot, the
literal "com/", then the two groups and the tail. -/
def matchApproveAt (s : List Char) : Option (List Char × List Char × List Char) :=
  if githubLit.isPrefixOf s then
    match s.drop githubLit.length with
    | [] => none
    | c :: rest =>
      if c = nl then none
      else if comLit.isPrefixOf rest then tryCap1 [] (rest.drop comLit.length)
      else none
  else none

/-- Model of re.search for the approval pattern: leftmost matching start. -/
def prSearch : List Char → Option (List Char × List Char × List Char)
  | [] => none
  | s@(_ :: rest) =>
    match matchApproveAt s with
    | some r => some r
    | none => prSearch rest

/-- Body text of a forge response. -/
abbrev RespBody := List Char

/-- One outbound forge call: endpoint URL, authorization header, and the
review event sent in the JSON body. -/
structure ForgeReq where
  url : List Char
  auth : List Char
  event : List Char
deriving DecidableEq, Repr

/-- Result of the approval operation. -/
inductive ApproveResult where
  | invalidUrl
  | approved
  | errBody (b : RespBody)
deriving DecidableEq, Repr

/-- The reviews endpoint URL built by the code. -/
def reviewsUrl (owner repo num : List Char) : List Char :=
  "https://api.github.com/repos/".data ++ owner ++ ('/' :: repo)
    ++ ("/pulls/".data ++ num ++ "/reviews".data)

/-- The authorization header: the Python f-string renders an absent token as
the literal text None. -/
def tokenHeader : Option (List Char) → List Char
  | none => "token None".data
  | some t => "token ".data ++ t

/-- The fixed approval intent sent in the request body. -/
def eventApprove : List Char := "APPROVE".data

/-- Embedding of approve_pr: parse the URL with the search pattern; on
failure return the invalid-URL error with no outbound call; on success issue
one POST to the reviews endpoint with the token header, then map response
status 200 or 201 to approved and anything else to an error carrying the
response body.  The list in the result records the outbound calls made. -/
def approve_pr (token : Option (List Char)) (pr_url : List Char)
    (forge : ForgeReq → Nat × RespBody) : ApproveResult × List ForgeReq :=
  match prSearch pr_url with
  | none => (.invalidUrl, [])
  | some (owner, repo, num) =>
    let req : ForgeReq := ⟨reviewsUrl owner repo num, tokenHeader token, eventApprove⟩
    match forge req with
    | (code, body) =>
      (if code = 200 ∨ code = 201 then .approved else .errBody body, [req])

/-- A well-formed PR URL with a numeric id, as in the claim. -/
def prUrl123 : List Char := "https://github.com/octocat/Hello-World/pull/123".data

/-- A URL matching the defective pattern: the id part is a literal backslash
followed by letters d. -/
def brokenUrl : List Char := "github.com/o/r/pull/\\dd".data

/-- Concrete token, response body, and forge oracles for closed statements. -/
def tok0 : List Char := "tkn".data

/-- Concrete 404 response body. -/
def body404 : List Char := "not found".data

/-- Forge oracle answering 404 with a fixed body. -/
def forge404 : ForgeReq → Nat × RespBody := fun _ => (404, body404)

/-- Forge oracle answering 201. -/
def forge201 : ForgeReq → Nat × RespBody := fun _ => (201, [])

/-- C5: the code rejects a pr_url that matches the owner/repo/number pattern
with a numeric id.  Because the raw-string pattern contains a doubled
backslash, the group for the id matches a literal backslash followed by
letters d, never digits, so the well-formed URL yields the invalid-URL error
and no outbound call, contradicting the claimed parse-and-approve path. -/
theorem C5_valid_url_rejected :
    approve_pr (some tok0) prUrl123 forge201 = (ApproveResult.invalidUrl, []) := by
  decide

/-- C8: whenever the URL parses, the approval operation returns the approved
result exactly when the forge answers status 200 or 201; for any other
status it returns the error result carrying the forge response body; and
exactly one outbound call is made, to the reviews endpoint with the token
header. -/
theorem C8_status_mapping (token : Option (List Char))
    (url owner repo num : List Char) (code : Nat) (body : RespBody)
    (h : prSearch url = some (owner, repo, num)) :
    ((approve_pr token url (fun _ => (code, body))).1 = ApproveResult.approved
        ↔ (code = 200 ∨ code = 201))
    ∧ (¬(code = 200 ∨ code = 201) →
        (approve_pr token url (fun _ => (code, body))).1 = ApproveResult.errBody body)
    ∧ (approve_pr token url (fun _ => (code, body))).2
        = [⟨reviewsUrl owner repo num, tokenHeader token, eventApprove⟩] := by
  simp only [approve_pr, h]
  by_cases hc : code = 200 ∨ code = 201 <;> simp [hc]

theorem C8_status_mapping_witness :
    ((approve_pr (some tok0) brokenUrl (fun _ => (404, body404))).1
        = ApproveResult.approved ↔ ((404 : Nat) = 200 ∨ (404 : Nat) = 201))
    ∧ (¬((404 : Nat) = 200 ∨ (404 : Nat) = 201) →
        (approve_pr (some tok0) brokenUrl (fun _ => (404, body404))).1
          = ApproveResult.errBody body404)
    ∧ (approve_pr (some tok0) brokenUrl (fun _ => (404, body404))).2
        = [⟨reviewsUrl "o".data "r".data "\\dd".data, tokenHeader (some tok0),
            eventApprove⟩] :=
  C8_status_mapping (some tok0) brokenUrl "o".data "r".data "\\dd".data 404 body404
    (by decide)

/-- C9 counterexample: with the git-forge token absent from the environment,
an approval request whose URL parses is not a runtime failure: the outbound
POST is issued carrying the placeholder header "token None", and the
operation returns the forge error result. -/
theorem C9_counterexample :
    approve_pr none brokenUrl forge404
      = (ApproveResult.errBody body404,
         [⟨reviewsUrl "o".data "r".data "\\dd".data, "token None".data,
           eventApprove⟩]) := by
  decide

/-- Modelled from the spec: the completion collaborator (the openai client
library, whose code is not part of this repository) fails at its first use
when the credential is absent from the environment; no startup validation is
performed. -/
def completion_first_use : Option (List Char) → Except (List Char) Unit
  | none => .error "missing completion credential".data
  | some _ => .ok ()

/-- C9 (amended): the absent completion credential is a runtime failure at
the first completion call; the absent git-forge token, however, is not
detected: any approval request whose URL parses issues its outbound POST
with the literal placeholder header "token None" instead of failing. -/
theorem C9_credentials (url owner repo num : List Char)
    (forge : ForgeReq → Nat × RespBody)
    (h : prSearch url = some (owner, repo, num)) :
    completion_first_use none = Except.error "missing completion credential".data
    ∧ (approve_pr none url forge).2
        = [⟨reviewsUrl owner repo num, "token None".data, eventApprove⟩]
    ∧ tokenHeader none = "token None".data := by
  refine ⟨rfl, ?_, rfl⟩
  simp only [approve_pr, h]
  cases hf : forge ⟨reviewsUrl owner repo num, tokenHeader none, eventApprove⟩ with
  | mk code body => simp [tokenHeader]

theorem C9_credentials_witness :
    completion_first_use none = Except.error "missing completion credential".data
    ∧ (approve_pr none brokenUrl forge404).2
        = [⟨reviewsUrl "o".data "r".data "\\dd".data, "token None".data,
            eventApprove⟩]
    ∧ tokenHeader none = "token None".data :=
  C9_credentials brokenUrl "o".data "r".data "\\dd".data forge404 (by decide)
